import Mathlib

/-!
Shallow embedding of the raw-text parsing and upsert-reconciliation engine of
the support_tracker repository (src/services/parser.py and src/main.py), and
proofs settling the frozen claims about its specification.

Python strings are modelled as Lean `String`/`List Char` (the inputs of this
engine are ASCII); Python `int` is `Int`; Python `float` fields (the
squadlinx/points fields, whose only values in this core are the literals
0.0 and 8.0) are modelled as `Rat`; Python `datetime.date` is a plain
(year, month, day) triple together with the validity predicate that
`datetime.date` enforces on construction.  Fallible code returns `Except`.
-/

theorem dropWhile_length_le {α : Type} (p : α → Bool) (l : List α) :
    (l.dropWhile p).length ≤ l.length := by
  induction l with
  | nil => simp [List.dropWhile]
  | cons c rest ih =>
    simp only [List.dropWhile]
    split
    · exact Nat.le_trans ih (by simp)
    · simp

/-- ASCII whitespace recognised by Python `str.strip()` / `str.split()`. -/
def isPySpace (c : Char) : Bool :=
  c == ' ' || c == '\t' || c == '\n' || c == '\x0b' || c == '\x0c' || c == '\r'

/-- ASCII lower-case letter, the character class `[a-z]` of the date regex. -/
def isLowerAZ (c : Char) : Bool :=
  'a' ≤ c && c ≤ 'z'

/-- Python `str.lower()` on one ASCII character: map an upper-case letter
(code 65-90) to its lower-case counterpart 32 code points higher. -/
def pyLowerChar (c : Char) : Char :=
  if 65 ≤ c.toNat ∧ c.toNat ≤ 90 then Char.ofNat (c.toNat + 32) else c

/-- Python `str.upper()` on one ASCII character: map a lower-case letter
(code 97-122) to its upper-case counterpart 32 code points lower. -/
def pyUpperChar (c : Char) : Char :=
  if 97 ≤ c.toNat ∧ c.toNat ≤ 122 then Char.ofNat (c.toNat - 32) else c

/-- Python `str.lower()`. -/
def pyLower (s : String) : String :=
  String.mk (s.data.map pyLowerChar)

/-- Python `str.upper()`. -/
def pyUpper (s : String) : String :=
  String.mk (s.data.map pyUpperChar)

/-- Python `str.strip()`: drop leading and trailing whitespace. -/
def pyStrip (s : String) : String :=
  String.mk (((s.data.dropWhile isPySpace).reverse.dropWhile isPySpace).reverse)

/-- Python `str.split('\n')`: split at every newline, keeping empty pieces. -/
def splitLines : List Char → List (List Char)
  | [] => [[]]
  | '\n' :: rest => [] :: splitLines rest
  | c :: rest =>
    match splitLines rest with
    | [] => [[c]]
    | l :: ls => (c :: l) :: ls

/-- Worker for `pySplit`: the accumulator holds the reversed characters of
the token currently being read. -/
def pySplitAux : List Char → List Char → List String
  | [], acc => if acc.isEmpty then [] else [String.mk acc.reverse]
  | c :: rest, acc =>
    if isPySpace c then
      if acc.isEmpty then pySplitAux rest []
      else String.mk acc.reverse :: pySplitAux rest []
    else pySplitAux rest (c :: acc)

/-- Python `str.split()` with no separator: whitespace-run tokenisation,
dropping empty tokens. -/
def pySplit (cs : List Char) : List String :=
  pySplitAux cs []

/-- Decimal value of a digit character. -/
def digitVal (c : Char) : Nat := c.toNat - 48

/-- Decimal value of a digit string (most significant digit first). -/
def digitsVal (cs : List Char) : Nat :=
  cs.foldl (fun a c => 10 * a + digitVal c) 0

/-- Validity of the digit part of a Python `int()` literal: a non-empty
run of digits in which an underscore may only stand between two digits. -/
def digitGroupValid : List Char → Bool
  | [] => false
  | [c] => c.isDigit
  | c :: c2 :: rest =>
    c.isDigit && (if c2 = '_' then digitGroupValid rest else digitGroupValid (c2 :: rest))

/-- Python `int(s)` on an already-stripped string: optional sign followed by
a valid digit group; `none` models the `ValueError` raise. -/
def pyIntParse (s : String) : Option Int :=
  match s.data with
  | '-' :: rest =>
    if digitGroupValid rest then some (-(digitsVal (rest.filter Char.isDigit) : Int)) else none
  | '+' :: rest =>
    if digitGroupValid rest then some ((digitsVal (rest.filter Char.isDigit) : Int)) else none
  | cs =>
    if digitGroupValid cs then some ((digitsVal (cs.filter Char.isDigit) : Int)) else none

/-- Embedding of `_safe_int` (src/services/parser.py lines 141-159): strip;
empty gives 0; try a direct `int()` parse; on failure keep only digits and
minus signs (re.sub of non-digit non-minus to nothing) and retry; on any
failure return 0.  Total by construction, mirroring the never-raises contract. -/
def _safe_int (value : String) : Int :=
  let s := pyStrip value
  if s = "" then 0
  else
    match pyIntParse s with
    | some n => n
    | none =>
      let cleaned := String.mk (s.data.filter (fun c => c.isDigit || c == '-'))
      match pyIntParse cleaned with
      | some n => n
      | none => 0

/-- Calendar date as constructed by Python `datetime.date`. -/
structure SDate where
  year : Int
  month : Nat
  day : Nat
deriving DecidableEq, Repr

/-- Proleptic-Gregorian leap-year rule used by `datetime.date`. -/
def isLeapYear (y : Int) : Bool :=
  y % 4 == 0 && (y % 100 != 0 || y % 400 == 0)

/-- Number of days of a month, as validated by `datetime.date`. -/
def daysInMonth (y : Int) (m : Nat) : Nat :=
  match m with
  | 1 => 31 | 2 => if isLeapYear y then 29 else 28 | 3 => 31 | 4 => 30
  | 5 => 31 | 6 => 30 | 7 => 31 | 8 => 31 | 9 => 30 | 10 => 31
  | 11 => 30 | 12 => 31 | _ => 0

/-- The constructor `datetime.date(y, m, d)` succeeds exactly under these
bounds (year 1..9999, month 1..12, day within the month). -/
def isValidDate (y : Int) (m d : Nat) : Bool :=
  1 ≤ y && y ≤ 9999 && 1 ≤ m && m ≤ 12 && 1 ≤ d && d ≤ daysInMonth y m

/-- The fixed Spanish month-abbreviation table `month_map` of
src/services/parser.py lines 117-120 (`dict.get`: `none` when absent). -/
def month_map (s : String) : Option Nat :=
  if s = "ene" then some 1 else if s = "feb" then some 2
  else if s = "mar" then some 3 else if s = "abr" then some 4
  else if s = "may" then some 5 else if s = "jun" then some 6
  else if s = "jul" then some 7 else if s = "ago" then some 8
  else if s = "sep" then some 9 else if s = "oct" then some 10
  else if s = "nov" then some 11 else if s = "dic" then some 12
  else none

deriving instance DecidableEq for Except

/-- State of the left-to-right scan that embeds
`re.findall(r'(\d+)\s+([a-z]{3})\.?', line)`: how far the current candidate
match has progressed.  `inDigits` holds the value of the digit run read so
far, `afterSpace` has additionally read at least one whitespace character,
`oneLetter`/`twoLetters` have read one/two of the three required lower-case
letters, and `afterMatch` has just emitted a match and may still consume the
optional trailing period. -/
inductive ScanState where
  | start
  | inDigits (day : Nat)
  | afterSpace (day : Nat)
  | oneLetter (day : Nat) (a : Char)
  | twoLetters (day : Nat) (a b : Char)
  | afterMatch
deriving DecidableEq, Repr

/-- Embedding of `re.findall(r'(\d+)\s+([a-z]{3})\.?', line)` as used by
`_extract_dates`, as a one-character-per-step scan.  This is equivalent to
the regex engine's leftmost, non-overlapping, greedy search: a match can only
start at a digit; when an attempt fails after a maximal digit run, no start
inside that run can succeed either (the character that broke the attempt
breaks it for every suffix of the run), so the engine's one-position restarts
amount to resuming the scan at the character that broke the attempt — which
is exactly what falling back to `start` (or to a fresh `inDigits` when that
character is itself a digit) does; after an emitted match the scan resumes
right after the optional consumed period. -/
def scanDatesAux : List Char → ScanState → List (Nat × String)
  | [], _ => []
  | c :: rest, st =>
    match st with
    | .start =>
      if c.isDigit then scanDatesAux rest (.inDigits (digitVal c))
      else scanDatesAux rest .start
    | .inDigits day =>
      if c.isDigit then scanDatesAux rest (.inDigits (10 * day + digitVal c))
      else if isPySpace c then scanDatesAux rest (.afterSpace day)
      else scanDatesAux rest .start
    | .afterSpace day =>
      if c.isDigit then scanDatesAux rest (.inDigits (digitVal c))
      else if isPySpace c then scanDatesAux rest (.afterSpace day)
      else if isLowerAZ c then scanDatesAux rest (.oneLetter day c)
      else scanDatesAux rest .start
    | .oneLetter day a =>
      if c.isDigit then scanDatesAux rest (.inDigits (digitVal c))
      else if isLowerAZ c then scanDatesAux rest (.twoLetters day a c)
      else scanDatesAux rest .start
    | .twoLetters day a b =>
      if c.isDigit then scanDatesAux rest (.inDigits (digitVal c))
      else if isLowerAZ c then (day, String.mk [a, b, c]) :: scanDatesAux rest .afterMatch
      else scanDatesAux rest .start
    | .afterMatch =>
      if c = '.' then scanDatesAux rest .start
      else if c.isDigit then scanDatesAux rest (.inDigits (digitVal c))
      else scanDatesAux rest .start

/-- All matches of the date pattern in the line, left to right. -/
def scanDates (cs : List Char) : List (Nat × String) :=
  scanDatesAux cs .start

/-- Embedding of `_extract_dates` (src/services/parser.py lines 107-138):
lower-case the line, scan for day/month-abbreviation matches, keep matches
whose abbreviation is in `month_map` and whose day makes a constructible
`datetime.date` in the base year (the try/except skips invalid days). -/
def _extract_dates (first_line : String) (base_year : Int) : List SDate :=
  (scanDates (pyLower first_line).data).filterMap fun dm =>
    match month_map dm.2 with
    | some m =>
      if isValidDate base_year m dm.1 then some ⟨base_year, m, dm.1⟩ else none
    | none => none

/-- Ephemeral parsed record produced by `parse_raw_text` and consumed by the
upsert endpoint of src/main.py (the spec's ParsedRecord).  The parser source
constructs it with the field spelling agent_name / tickets_processed /
ticket_goal / squadlinx_points / squadlinx_goal; the endpoint and the test
suite read the same positions as excel_alias / tickets_actual / tickets_goal
/ points_actual / points_goal, which is the spelling kept here. -/
structure ParsedPerformance where
  excel_alias : String
  date : SDate
  tickets_actual : Int
  tickets_goal : Int
  points_actual : Rat
  points_goal : Rat
deriving DecidableEq, Repr

/-- The reserved header tokens of src/services/parser.py line 62: a data
line whose text before the first digit, stripped and upper-cased, equals one
of these (or is empty) is skipped. -/
def reservedHeaderTokens : List String :=
  ["T.", "P", "M.", "A", "D.M", "WIEDER", "T. P", "M. A"]

/-- Row segmentation step of `parse_raw_text` (src/services/parser.py lines
46-67): find the first digit (`re.search` of one digit); no digit means skip;
the text before it, stripped and upper-cased, is the agent name, skipped when
empty or reserved; the rest of the line is whitespace-split into the numeric
tokens. -/
def segmentLine (line : String) : Option (String × List String) :=
  match List.findIdx? Char.isDigit (pyStrip line).data with
  | none => none
  | some i =>
    if pyUpper (pyStrip (String.mk ((pyStrip line).data.take i))) = "" ||
       reservedHeaderTokens.contains (pyUpper (pyStrip (String.mk ((pyStrip line).data.take i)))) then
      none
    else
      some (pyUpper (pyStrip (String.mk ((pyStrip line).data.take i))),
            pySplit ((pyStrip line).data.drop i))

/-- Day-block decoding loop of `parse_raw_text` (src/services/parser.py lines
70-102): while at least three value tokens and one date remain, emit
(sanitized actual, sanitized goal, date), then advance three tokens (the
third, "delta", column is ignored) and one date. -/
def decodeDayBlocks : List String → List SDate → List (Int × Int × SDate)
  | a :: g :: _ :: rest, d :: ds =>
    (_safe_int a, _safe_int g, d) :: decodeDayBlocks rest ds
  | _, _ => []

/-- The non-blank stripped lines of the raw text (src/services/parser.py
line 32). -/
def nonBlankLines (raw : String) : List String :=
  ((splitLines (pyStrip raw).data).map (fun l => pyStrip (String.mk l))).filter
    (fun l => l != "")

/-- Embedding of `parse_raw_text` (src/services/parser.py lines 12-104).
The error value models the `ValueError` raise; the base year is an explicit
argument (the Python default `datetime.now().year` is ambient state outside
this pure core).  Records get the parser's fixed squadlinx/points defaults
0.0 and 8.0. -/
def parse_raw_text (raw_text : String) (base_year : Int) :
    Except String (List ParsedPerformance) :=
  let lines := nonBlankLines raw_text
  if lines.length < 3 then
    .error "Invalid format: text must have at least 3 lines"
  else
    let dates := _extract_dates lines.headI base_year
    let data_lines := lines.drop 2
    .ok ((data_lines.map fun line =>
      match segmentLine line with
      | none => []
      | some (name, vals) =>
        (decodeDayBlocks vals dates).map fun t =>
          { excel_alias := name, date := t.2.2, tickets_actual := t.1,
            tickets_goal := t.2.1, points_actual := (0 : Rat),
            points_goal := (8 : Rat) }).join)

/-- Stored DailyPerformance row (src/models.py lines 50-81), without the
surrogate id, which the store assigns and the parsing core never reads. -/
structure PerfRecord where
  agent_id : Nat
  date : SDate
  tickets_actual : Int
  tickets_goal : Int
  points_actual : Rat
  points_goal : Rat
deriving DecidableEq, Repr

/-- The upsert key (agent_id, date) of src/main.py line 175 and of the
uq_agent_date unique constraint of src/models.py. -/
def keyR (r : PerfRecord) : Nat × SDate :=
  (r.agent_id, r.date)

/-- First stored record with the given key: the model of
`db.query(DailyPerformance).filter(agent_id, date).first()`. -/
def findKey (store : List PerfRecord) (k : Nat × SDate) : Option PerfRecord :=
  store.find? (fun r => keyR r = k)

/-- Whether some stored record has the given key. -/
def hasKey (store : List PerfRecord) (k : Nat × SDate) : Bool :=
  store.any (fun r => keyR r = k)

/-- The grouping step of src/main.py lines 166-185: a Python dict keyed by
(agent_id, date), filled in input order, inserting only when the key is not
yet present. -/
def insertIfAbsent (acc : List PerfRecord) (r : PerfRecord) : List PerfRecord :=
  if hasKey acc (keyR r) then acc else acc ++ [r]

/-- `performances_by_key` of src/main.py lines 166-185 as an insertion-order
association list (dict preserves insertion order; values carry their key). -/
def groupPerformances (l : List PerfRecord) : List PerfRecord :=
  l.foldl insertIfAbsent []

/-- In-place update of src/main.py lines 202-210: overwrite the four value
fields of the found record, keeping its identity and key. -/
def setVals (r g : PerfRecord) : PerfRecord :=
  { r with tickets_actual := g.tickets_actual, tickets_goal := g.tickets_goal,
           points_actual := g.points_actual, points_goal := g.points_goal }

/-- Overwrite the value fields of the first record matching g's key. -/
def updateFirst (s : List PerfRecord) (g : PerfRecord) : List PerfRecord :=
  match s with
  | [] => []
  | r :: rest => if keyR r = keyR g then setVals r g :: rest else r :: updateFirst rest g

/-- One iteration of the upsert loop of src/main.py lines 193-224: update the
existing (agent_id, date) record in place if present, else add a new one
(`db.add` appends to the batch for the commit). -/
def upsertOne (store : List PerfRecord) (g : PerfRecord) : List PerfRecord :=
  if hasKey store (keyR g) then updateFirst store g else store ++ [g]

/-- The whole upsert loop over the grouped performances, in dict insertion
order, followed by the single `db.commit()`. -/
def applyUpserts (store : List PerfRecord) (gs : List PerfRecord) : List PerfRecord :=
  gs.foldl upsertOne store

/-- Caller-supplied global overrides of the upload request
(src/schemas.py RawDataUpload: optional date, tickets_goal, points_goal). -/
structure UploadOverrides where
  ovDate : Option SDate
  ovTicketsGoal : Option Int
  ovPointsGoal : Option Rat
deriving DecidableEq, Repr

/-- No overrides supplied. -/
def noOverrides : UploadOverrides :=
  ⟨none, none, none⟩

/-- Failure modes of the upload endpoint that belong to the parsing/upsert
core (the team-existence 404 is an external CRUD concern):
`malformedInput` wraps the parser's ValueError (HTTP 400 at src/main.py lines
239-244), `noValidData` the empty-parse rejection (lines 135-140), and
`unresolvedIdentity` the missing-agents rejection (lines 154-161), carrying
the sorted list of unresolved aliases. -/
inductive UploadError where
  | malformedInput (msg : String)
  | noValidData
  | unresolvedIdentity (aliases : List String)
deriving DecidableEq, Repr

/-- Lexicographic code-point comparison on character lists: the order Python
uses to compare strings. -/
def strLeAux : List Char → List Char → Bool
  | [], _ => true
  | _ :: _, [] => false
  | a :: as, b :: bs =>
    if a.toNat < b.toNat then true
    else if b.toNat < a.toNat then false
    else strLeAux as bs

/-- Python string comparison `a <= b` (code-point lexicographic). -/
def strLe (a b : String) : Bool :=
  strLeAux a.data b.data

/-- Sorted order used by Python `sorted` on strings. -/
def sortStrings (l : List String) : List String :=
  l.insertionSort (fun a b => strLe a b = true)

/-- The distinct aliases of the parsed batch that the resolver cannot map,
one occurrence each: `unique_excel_aliases - agents_by_alias.keys()` of
src/main.py lines 142-155. -/
def unresolvedAliases (ps : List ParsedPerformance) (resolve : String → Option Nat) :
    List String :=
  ((ps.map (fun p => p.excel_alias)).filter (fun a => (resolve a).isNone)).dedup

/-- Effective record for one parsed performance after resolution and global
overrides (src/main.py lines 167-185): override date and goals when supplied,
keep parsed values otherwise. -/
def resolvePerf (ov : UploadOverrides) (aid : Nat) (p : ParsedPerformance) : PerfRecord :=
  { agent_id := aid, date := ov.ovDate.getD p.date,
    tickets_actual := p.tickets_actual,
    tickets_goal := ov.ovTicketsGoal.getD p.tickets_goal,
    points_actual := p.points_actual,
    points_goal := ov.ovPointsGoal.getD p.points_goal }

/-- Embedding of the `upload_raw_data` endpoint body (src/main.py lines
90-234) restricted to the parsing/upsert core: parse, reject an empty parse,
resolve every alias through the scope-restricted agent lookup failing with
the complete sorted unresolved list, apply overrides, group by
(agent_id, date) with dict first-insertion semantics, and upsert into the
store as one batch.  An error models the HTTPException paths, on which the
commit is never reached and the store is unchanged. -/
def upload_raw_data (raw : String) (base_year : Int) (ov : UploadOverrides)
    (resolve : String → Option Nat) (store : List PerfRecord) :
    Except UploadError (List PerfRecord) :=
  match parse_raw_text raw base_year with
  | .error msg => .error (.malformedInput msg)
  | .ok parsed =>
    if parsed = [] then .error .noValidData
    else
      let unresolved := unresolvedAliases parsed resolve
      if unresolved ≠ [] then .error (.unresolvedIdentity (sortStrings unresolved))
      else
        let rps := parsed.filterMap fun p =>
          (resolve p.excel_alias).map fun aid => resolvePerf ov aid p
        .ok (applyUpserts store (groupPerformances rps))

/-- Claim C10: for the header line "1 enero", whose month word is longer than
three letters, `_extract_dates` with base year 2024 still produces the date
2024-01-01: the regex matches any three consecutive letters after the day
number without requiring them to end the word, so "enero" is accepted via its
three-letter prefix "ene". -/
theorem claim_C10 : _extract_dates "1 enero" 2024 = [⟨2024, 1, 1⟩] := by
  decide

/-- Counterexample to claim C1 as stated: the batch below contains two parsed
records for the same (resolved agent, date) pair, the first with
actual/goal 5/6 and the later with 7/8.  The grouping of src/main.py inserts
only when the key is absent, so the value persisted for the pair is the
EARLIER occurrence 5/6, not the later 7/8 that last-write-wins would demand. -/
theorem claim_C1_counterexample :
    upload_raw_data
      "WIEDER 1 ene.\nT. P M. A D.M\nM. ALVAREZ 5 6 0\nM. ALVAREZ 7 8 0" 2024
      noOverrides (fun a => if a = "M. ALVAREZ" then some 1 else none) [] =
      .ok [⟨1, ⟨2024, 1, 1⟩, 5, 6, 0, 8⟩] ∧
    (5 : Int) ≠ 7 := by
  constructor
  · decide
  · decide

/-- Counterexample to claim C2 as stated: with the token sequence
["1", "2"] two tokens remain and one date remains, so the claimed decoder
would emit one record, but the loop of src/services/parser.py line 74 runs
only while `col_index + 2 < len(data_values)`, i.e. while at least THREE
tokens remain, and emits nothing here. -/
theorem claim_C2_counterexample :
    decodeDayBlocks ["1", "2"] [⟨2024, 1, 1⟩] = [] ∧
    (["1", "2"] : List String).length = 2 ∧
    ([⟨2024, 1, 1⟩] : List SDate).length = 1 := by
  refine ⟨rfl, rfl, rfl⟩

/-- Counterexample to claim C3 as stated: the input "abc\ndef\nghi" has three
non-blank lines and a header from which zero dates can be extracted, yet
`parse_raw_text` does not fail with the MalformedInput error — it returns an
empty parse, which the endpoint then rejects with the separate
no-valid-data error, still before any resolution or storage step. -/
theorem claim_C3_counterexample :
    parse_raw_text "abc\ndef\nghi" 2024 = .ok [] ∧
    _extract_dates "abc" 2024 = [] ∧
    (nonBlankLines "abc\ndef\nghi").length = 3 ∧
    (∀ resolve store,
      upload_raw_data "abc\ndef\nghi" 2024 noOverrides resolve store =
        .error .noValidData) := by
  refine ⟨by decide, by decide, by decide, fun resolve store => ?_⟩
  rfl

/-- Counterexample to claim C5 as stated: the line "TOTAL 5 3 2" contains the
marker substring "TOTAL", so the claimed segmenter would skip it, but
src/services/parser.py has no marker-substring check — only an exact-match
test of the text before the first digit against the reserved token list, and
"TOTAL" is not in that list, so the line yields a record. -/
theorem claim_C5_counterexample :
    parse_raw_text "WIEDER 1 ene.\nT. P M. A D.M\nTOTAL 5 3 2" 2024 =
      .ok [⟨"TOTAL", ⟨2024, 1, 1⟩, 5, 3, 0, 8⟩] ∧
    segmentLine "TOTAL 5 3 2" = some ("TOTAL", ["5", "3", "2"]) := by
  exact ⟨by decide, by decide⟩

theorem isDigit_not_pySpace {c : Char} (h : c.isDigit = true) : isPySpace c = false := by
  by_contra hne
  have hsp : isPySpace c = true := by
    cases hb : isPySpace c
    · exact absurd hb hne
    · rfl
  unfold isPySpace at hsp
  simp only [Bool.or_eq_true, beq_iff_eq] at hsp
  rcases hsp with ((((h1 | h1) | h1) | h1) | h1) | h1 <;>
    (subst h1; exact absurd h (by decide))

theorem isDigit_ne_minus {c : Char} (h : c.isDigit = true) : c ≠ '-' := by
  intro he; rw [he] at h; exact absurd h (by decide)

theorem isDigit_ne_plus {c : Char} (h : c.isDigit = true) : c ≠ '+' := by
  intro he; rw [he] at h; exact absurd h (by decide)

theorem isDigit_ne_underscore {c : Char} (h : c.isDigit = true) : c ≠ '_' := by
  intro he; rw [he] at h; exact absurd h (by decide)

theorem dropWhile_eq_self_of_not {α : Type} (p : α → Bool) (l : List α)
    (h : ∀ c ∈ l, p c = false) : l.dropWhile p = l := by
  cases l with
  | nil => rfl
  | cons c rest => simp [List.dropWhile, h c (by simp)]

theorem dropWhile_eq_nil_of_all {α : Type} (p : α → Bool) (l : List α)
    (h : ∀ c ∈ l, p c = true) : l.dropWhile p = [] := by
  induction l with
  | nil => rfl
  | cons c rest ih =>
    rw [List.dropWhile_cons, if_pos (h c (List.mem_cons_self c rest))]
    exact ih (fun x hx => h x (List.mem_cons_of_mem _ hx))

theorem string_mk_data (s : String) : String.mk s.data = s := rfl

theorem pyStrip_eq_self_of_no_space (s : String)
    (h : ∀ c ∈ s.data, isPySpace c = false) : pyStrip s = s := by
  unfold pyStrip
  rw [dropWhile_eq_self_of_not _ _ h,
      dropWhile_eq_self_of_not _ _ (fun c hc => h c (List.mem_reverse.mp hc)),
      List.reverse_reverse, string_mk_data]

theorem digitGroupValid_of_all_digits (l : List Char) (h1 : l ≠ [])
    (h2 : ∀ c ∈ l, c.isDigit = true) : digitGroupValid l = true := by
  induction l with
  | nil => exact absurd rfl h1
  | cons c rest ih =>
    cases rest with
    | nil => simpa [digitGroupValid] using h2 c (by simp)
    | cons c2 rest2 =>
      have hc := h2 c (by simp)
      have hne : ¬(c2 = '_') := isDigit_ne_underscore (h2 c2 (by simp))
      simp only [digitGroupValid, hc, Bool.true_and, if_neg hne]
      exact ih (by simp) (fun x hx => h2 x (by simp [hx]))

theorem pyIntParse_all_digits (s : String) (h1 : s.data ≠ [])
    (h2 : ∀ c ∈ s.data, c.isDigit = true) :
    pyIntParse s = some ((digitsVal s.data : Int)) := by
  unfold pyIntParse
  have hfil : s.data.filter Char.isDigit = s.data := List.filter_eq_self.mpr h2
  have hval := digitGroupValid_of_all_digits s.data h1 h2
  cases hd : s.data with
  | nil => exact absurd hd h1
  | cons c rest =>
    have hc := h2 c (by rw [hd]; simp)
    rw [hd] at hfil hval
    have hcm : c ≠ '-' := isDigit_ne_minus hc
    have hcp : c ≠ '+' := isDigit_ne_plus hc
    split
    · rename_i heq
      first
        | (injection heq with hh1 hh2; exact absurd hh1 hcm)
        | (injection heq.symm with hh1 hh2; exact absurd hh1.symm hcm)
    · rename_i heq
      first
        | (injection heq with hh1 hh2; exact absurd hh1 hcp)
        | (injection heq.symm with hh1 hh2; exact absurd hh1.symm hcp)
    · rw [hval, hfil]
      simp

/-- Claim C6: the numeric sanitizer `_safe_int` always returns an integer and
never raises (it is a total function into `Int` by construction); on a
non-empty all-digit token it returns that token's decimal value unchanged; on
a whitespace-only (in particular empty) token it returns 0; and on the
thousands-separator token "1.234" it returns 1234. -/
theorem claim_C6 :
    (∀ t : String, t.data ≠ [] → (∀ c ∈ t.data, c.isDigit = true) →
      _safe_int t = (digitsVal t.data : Int)) ∧
    (∀ t : String, (∀ c ∈ t.data, isPySpace c = true) → _safe_int t = 0) ∧
    _safe_int "1.234" = 1234 := by
  refine ⟨fun t h1 h2 => ?_, fun t h => ?_, by decide⟩
  · unfold _safe_int
    rw [pyStrip_eq_self_of_no_space t (fun c hc => isDigit_not_pySpace (h2 c hc))]
    have hne : ¬(t = "") := by
      intro he; rw [he] at h1; exact h1 rfl
    rw [if_neg hne, pyIntParse_all_digits t h1 h2]
  · unfold _safe_int
    have hstrip : pyStrip t = "" := by
      unfold pyStrip
      rw [dropWhile_eq_nil_of_all _ _ h]
      rfl
    rw [hstrip]
    rfl

/-- Witness for claim C6 at concrete inputs: "407" is a non-empty all-digit
token and sanitizes to 407; the whitespace-only token "  " sanitizes to 0. -/
theorem claim_C6_witness :
    ("407" : String).data ≠ [] ∧ (∀ c ∈ ("407" : String).data, c.isDigit = true) ∧
    _safe_int "407" = 407 ∧ _safe_int "  " = 0 := by
  refine ⟨by decide, by decide, ?_, ?_⟩
  · rw [claim_C6.1 "407" (by decide) (by decide)]; decide
  · exact claim_C6.2.1 "  " (by decide)

/-- The four mutable value fields of a stored record, the ones the upsert
loop overwrites. -/
def valsOf (r : PerfRecord) : Int × Int × Rat × Rat :=
  (r.tickets_actual, r.tickets_goal, r.points_actual, r.points_goal)

theorem keyR_setVals (r g : PerfRecord) : keyR (setVals r g) = keyR r := rfl

theorem updateFirst_nil (g : PerfRecord) : updateFirst [] g = [] := rfl

theorem updateFirst_cons (r : PerfRecord) (rest : List PerfRecord) (g : PerfRecord) :
    updateFirst (r :: rest) g =
      if keyR r = keyR g then setVals r g :: rest else r :: updateFirst rest g := rfl

theorem valsOf_setVals (r g : PerfRecord) : valsOf (setVals r g) = valsOf g := rfl

theorem setVals_setVals (r g : PerfRecord) : setVals (setVals r g) g = setVals r g := rfl

theorem setVals_self (g : PerfRecord) : setVals g g = g := rfl

theorem updateFirst_map_keyR (s : List PerfRecord) (g : PerfRecord) :
    (updateFirst s g).map keyR = s.map keyR := by
  induction s with
  | nil => rfl
  | cons r rest ih =>
    unfold updateFirst
    split
    · simp [keyR_setVals]
    · simp [ih]

theorem hasKey_updateFirst (s : List PerfRecord) (g : PerfRecord) (k : Nat × SDate) :
    hasKey (updateFirst s g) k = hasKey s k := by
  induction s with
  | nil => rfl
  | cons r rest ih =>
    unfold updateFirst
    split
    · unfold hasKey
      simp only [List.any_cons]
      rw [show keyR (setVals r g) = keyR r from rfl]
    · unfold hasKey at ih ⊢
      simp only [List.any_cons, ih]

theorem hasKey_append (s t : List PerfRecord) (k : Nat × SDate) :
    hasKey (s ++ t) k = (hasKey s k || hasKey t k) := by
  unfold hasKey
  exact List.any_append

theorem hasKey_false_iff (s : List PerfRecord) (k : Nat × SDate) :
    hasKey s k = false ↔ ∀ r ∈ s, keyR r ≠ k := by
  unfold hasKey
  simp

theorem hasKey_self_cons (g : PerfRecord) (t : List PerfRecord) :
    hasKey (g :: t) (keyR g) = true := by
  unfold hasKey
  simp

theorem findKey_cons (r : PerfRecord) (rest : List PerfRecord) (k : Nat × SDate) :
    findKey (r :: rest) k = if keyR r = k then some r else findKey rest k := by
  unfold findKey
  rw [List.find?_cons]
  split
  · rename_i hb; rw [if_pos (of_decide_eq_true hb)]
  · rename_i hb; rw [if_neg (of_decide_eq_false hb)]

/-- Left-biased choice on options, used to state how search distributes over
append and fold. -/
def orO {α : Type} : Option α → Option α → Option α
  | some a, _ => some a
  | none, b => b

theorem orO_none_right {α : Type} (o : Option α) : orO o none = o := by
  cases o <;> rfl

theorem findKey_append (s t : List PerfRecord) (k : Nat × SDate) :
    findKey (s ++ t) k = orO (findKey s k) (findKey t k) := by
  induction s with
  | nil => rfl
  | cons r rest ih =>
    rw [List.cons_append, findKey_cons, findKey_cons]
    split
    · rfl
    · exact ih

theorem hasKey_eq_isSome_findKey (s : List PerfRecord) (k : Nat × SDate) :
    hasKey s k = (findKey s k).isSome := by
  induction s with
  | nil => rfl
  | cons r rest ih =>
    rw [findKey_cons]
    unfold hasKey
    rw [List.any_cons]
    split
    · rename_i hp
      rw [decide_eq_true hp, Bool.true_or]
      rfl
    · rename_i hp
      rw [decide_eq_false hp, Bool.false_or]
      exact ih

theorem findKey_updateFirst_other (s : List PerfRecord) (g : PerfRecord)
    (k : Nat × SDate) (h : k ≠ keyR g) :
    findKey (updateFirst s g) k = findKey s k := by
  induction s with
  | nil => rfl
  | cons r rest ih =>
    unfold updateFirst
    split
    · rename_i hr
      rw [findKey_cons, findKey_cons, keyR_setVals]
      split
      · rename_i hk; exact absurd (hr ▸ hk) (fun he => h he.symm)
      · rfl
    · rw [findKey_cons, findKey_cons]
      split
      · rfl
      · exact ih

theorem findKey_updateFirst_self_vals (s : List PerfRecord) (g : PerfRecord)
    (h : hasKey s (keyR g) = true) :
    (findKey (updateFirst s g) (keyR g)).map valsOf = some (valsOf g) := by
  induction s with
  | nil => simp [hasKey] at h
  | cons r rest ih =>
    unfold updateFirst
    split
    · rename_i hr
      rw [findKey_cons, keyR_setVals, if_pos hr]
      simp [valsOf_setVals]
    · rename_i hr
      rw [findKey_cons, if_neg hr]
      refine ih ?_
      unfold hasKey at h
      rw [List.any_cons, decide_eq_false hr, Bool.false_or] at h
      exact h

theorem findKey_upsertOne_self_vals (s : List PerfRecord) (g : PerfRecord) :
    (findKey (upsertOne s g) (keyR g)).map valsOf = some (valsOf g) := by
  unfold upsertOne
  split
  · rename_i h; exact findKey_updateFirst_self_vals s g h
  · rename_i h
    rw [findKey_append]
    have hnone : findKey s (keyR g) = none := by
      cases hf : findKey s (keyR g) with
      | none => rfl
      | some r =>
        have h2 := hasKey_eq_isSome_findKey s (keyR g)
        rw [Bool.not_eq_true] at h
        rw [hf, h] at h2
        simp at h2
    rw [hnone]
    rw [show findKey [g] (keyR g) = some g from by rw [findKey_cons, if_pos rfl]]
    rfl

theorem findKey_upsertOne_other (s : List PerfRecord) (g : PerfRecord)
    (k : Nat × SDate) (h : k ≠ keyR g) :
    findKey (upsertOne s g) k = findKey s k := by
  unfold upsertOne
  split
  · exact findKey_updateFirst_other s g k h
  · rw [findKey_append]
    rw [show findKey [g] k = none from by
      rw [findKey_cons, if_neg (fun he => h he.symm)]; rfl]
    exact orO_none_right _

theorem findKey_applyUpserts_other (gs : List PerfRecord) (s : List PerfRecord)
    (k : Nat × SDate) (h : ∀ g ∈ gs, k ≠ keyR g) :
    findKey (applyUpserts s gs) k = findKey s k := by
  induction gs generalizing s with
  | nil => rfl
  | cons g gs' ih =>
    unfold applyUpserts at ih ⊢
    rw [List.foldl_cons, ih (upsertOne s g) (fun x hx => h x (List.mem_cons_of_mem _ hx)),
        findKey_upsertOne_other s g k (h g (List.mem_cons_self _ _))]

theorem findKey_foldl_insertIfAbsent (l : List PerfRecord) (acc : List PerfRecord)
    (k : Nat × SDate) :
    findKey (l.foldl insertIfAbsent acc) k = orO (findKey acc k) (findKey l k) := by
  induction l generalizing acc with
  | nil => exact (orO_none_right _).symm
  | cons r l' ih =>
    rw [List.foldl_cons, ih]
    unfold insertIfAbsent
    split
    · rename_i hk
      rw [findKey_cons]
      split
      · rename_i hkr
        have hsome : (findKey acc k).isSome = true := by
          rw [← hasKey_eq_isSome_findKey, ← hkr]; exact hk
        cases hf : findKey acc k with
        | none => rw [hf] at hsome; exact absurd hsome (by decide)
        | some p => rfl
      · rfl
    · rename_i hk
      rw [findKey_append, findKey_cons]
      split
      · rename_i hkr
        have hnone : findKey acc k = none := by
          cases hf : findKey acc k with
          | none => rfl
          | some p =>
            have h2 := hasKey_eq_isSome_findKey acc k
            rw [hf, ← hkr] at h2
            rw [Bool.not_eq_true] at hk
            rw [hk] at h2
            simp at h2
        rw [hnone, findKey_cons, if_pos hkr]
        rfl
      · rename_i hkr
        rw [show findKey ([] : List PerfRecord) k = none from rfl, orO_none_right,
            findKey_cons, if_neg hkr]

theorem findKey_groupPerformances (l : List PerfRecord) (k : Nat × SDate) :
    findKey (groupPerformances l) k = findKey l k := by
  unfold groupPerformances
  rw [findKey_foldl_insertIfAbsent]
  rfl

theorem nodup_keys_foldl_insertIfAbsent (l : List PerfRecord) (acc : List PerfRecord)
    (h : (acc.map keyR).Nodup) :
    ((l.foldl insertIfAbsent acc).map keyR).Nodup := by
  induction l generalizing acc with
  | nil => exact h
  | cons r l' ih =>
    rw [List.foldl_cons]
    refine ih _ ?_
    unfold insertIfAbsent
    split
    · exact h
    · rename_i hk
      rw [Bool.not_eq_true] at hk
      rw [List.map_append]
      simp only [List.map_cons, List.map_nil]
      rw [List.nodup_append]
      refine ⟨h, List.nodup_singleton _, ?_⟩
      intro x hx hy
      rw [List.mem_singleton] at hy
      rw [hasKey_false_iff] at hk
      rcases List.mem_map.mp hx with ⟨r2, hr2, hrx⟩
      exact hk r2 hr2 (by rw [hrx, hy])

theorem nodup_keys_groupPerformances (l : List PerfRecord) :
    ((groupPerformances l).map keyR).Nodup :=
  nodup_keys_foldl_insertIfAbsent l [] (by simp)

/-- Claim C8: each upsert iteration preserves the at-most-one-record-per-
(agent_id, date) invariant of the store; when the key is absent the record is
created (appended, leaving everything else untouched); when the key is
present the existing record is mutated in place — the key multiset of the
store is unchanged — and no upsert ever removes a record (the store never
shrinks; deletion is no part of the core). -/
theorem claim_C8 (s : List PerfRecord) (g : PerfRecord) :
    ((s.map keyR).Nodup → ((upsertOne s g).map keyR).Nodup) ∧
    (hasKey s (keyR g) = false → upsertOne s g = s ++ [g]) ∧
    (hasKey s (keyR g) = true → (upsertOne s g).map keyR = s.map keyR) ∧
    s.length ≤ (upsertOne s g).length := by
  refine ⟨fun hnd => ?_, fun habs => ?_, fun hpres => ?_, ?_⟩
  · unfold upsertOne
    split
    · rw [updateFirst_map_keyR]; exact hnd
    · rename_i hk
      rw [Bool.not_eq_true] at hk
      rw [List.map_append]
      simp only [List.map_cons, List.map_nil]
      rw [List.nodup_append]
      refine ⟨hnd, List.nodup_singleton _, ?_⟩
      intro x hx hy
      rw [List.mem_singleton] at hy
      rw [hasKey_false_iff] at hk
      rcases List.mem_map.mp hx with ⟨r2, hr2, hrx⟩
      exact hk r2 hr2 (by rw [hrx, hy])
  · unfold upsertOne
    rw [habs]
    simp
  · unfold upsertOne
    rw [hpres]
    simp only [if_true]
    exact updateFirst_map_keyR s g
  · unfold upsertOne
    split
    · have h := congrArg List.length (updateFirst_map_keyR s g)
      simp only [List.length_map] at h
      omega
    · simp

/-- Witness for claim C8: a store holding one record for agent 1 on
2024-01-01; upserting new values for the same pair keeps the key list
unchanged (mutation in place), and upserting a record for agent 2 appends it. -/
theorem claim_C8_witness :
    hasKey [⟨1, ⟨2024, 1, 1⟩, 1, 2, 0, 8⟩] (keyR ⟨1, ⟨2024, 1, 1⟩, 5, 6, 0, 8⟩) = true ∧
    (upsertOne [⟨1, ⟨2024, 1, 1⟩, 1, 2, 0, 8⟩] ⟨1, ⟨2024, 1, 1⟩, 5, 6, 0, 8⟩).map keyR =
      ([⟨1, ⟨2024, 1, 1⟩, 1, 2, 0, 8⟩] : List PerfRecord).map keyR ∧
    hasKey [⟨1, ⟨2024, 1, 1⟩, 1, 2, 0, 8⟩] (keyR ⟨2, ⟨2024, 1, 1⟩, 5, 6, 0, 8⟩) = false ∧
    upsertOne [⟨1, ⟨2024, 1, 1⟩, 1, 2, 0, 8⟩] ⟨2, ⟨2024, 1, 1⟩, 5, 6, 0, 8⟩ =
      [⟨1, ⟨2024, 1, 1⟩, 1, 2, 0, 8⟩] ++ [⟨2, ⟨2024, 1, 1⟩, 5, 6, 0, 8⟩] := by
  refine ⟨by decide, ?_, by decide, ?_⟩
  · exact (claim_C8 [⟨1, ⟨2024, 1, 1⟩, 1, 2, 0, 8⟩] ⟨1, ⟨2024, 1, 1⟩, 5, 6, 0, 8⟩).2.2.1
      (by decide)
  · exact (claim_C8 [⟨1, ⟨2024, 1, 1⟩, 1, 2, 0, 8⟩] ⟨2, ⟨2024, 1, 1⟩, 5, 6, 0, 8⟩).2.1
      (by decide)

/-- Claim C1, corrected to first-write-wins: the grouping of the Upsert
Reconciler keys the batch by (resolved_agent_id, effective_date) and keeps,
for each key, the EARLIEST record of the batch in input order (the dict is
only written when the key is absent), so the values persisted to the store
for that key — under any prior store contents — are those of the first
occurrence in the batch. -/
theorem claim_C1 (l : List PerfRecord) (s : List PerfRecord) (k : Nat × SDate) :
    findKey (groupPerformances l) k = findKey l k ∧
    (∀ p, findKey l k = some p →
      (findKey (applyUpserts s (groupPerformances l)) k).map valsOf = some (valsOf p)) := by
  refine ⟨findKey_groupPerformances l k, fun p hp => ?_⟩
  have hg : findKey (groupPerformances l) k = some p := by
    rw [findKey_groupPerformances l k]; exact hp
  have hnd := nodup_keys_groupPerformances l
  revert hg hnd
  generalize groupPerformances l = gs
  intro hg hnd
  induction gs generalizing s with
  | nil => simp [findKey] at hg
  | cons g gs' ih =>
    rw [findKey_cons] at hg
    unfold applyUpserts
    rw [List.foldl_cons]
    by_cases hkg : keyR g = k
    · rw [if_pos hkg] at hg
      have hothers : ∀ g' ∈ gs', k ≠ keyR g' := by
        intro g' hg' he
        simp only [List.map_cons, List.nodup_cons] at hnd
        exact hnd.1 (by rw [hkg, he]; exact List.mem_map.mpr ⟨g', hg', rfl⟩)
      rw [show List.foldl upsertOne (upsertOne s g) gs' =
            applyUpserts (upsertOne s g) gs' from rfl,
          findKey_applyUpserts_other gs' (upsertOne s g) k hothers]
      rw [← hkg]
      have hpg : g = p := Option.some.inj hg
      rw [← hpg]
      exact findKey_upsertOne_self_vals s g
    · rw [if_neg hkg] at hg
      simp only [List.map_cons, List.nodup_cons] at hnd
      exact ih (upsertOne s g) hg hnd.2

/-- Witness for claim C1: a batch with two records for the key (1, 2024-01-01),
values 5/6 first and 7/8 later; grouping keeps the first occurrence and the
value persisted into an empty store is 5/6. -/
theorem claim_C1_witness :
    findKey [⟨1, ⟨2024, 1, 1⟩, 5, 6, 0, 8⟩, ⟨1, ⟨2024, 1, 1⟩, 7, 8, 0, 8⟩]
        (1, ⟨2024, 1, 1⟩) = some ⟨1, ⟨2024, 1, 1⟩, 5, 6, 0, 8⟩ ∧
    (findKey (applyUpserts []
        (groupPerformances [⟨1, ⟨2024, 1, 1⟩, 5, 6, 0, 8⟩, ⟨1, ⟨2024, 1, 1⟩, 7, 8, 0, 8⟩]))
        (1, ⟨2024, 1, 1⟩)).map valsOf = some (valsOf ⟨1, ⟨2024, 1, 1⟩, 5, 6, 0, 8⟩) := by
  refine ⟨by decide, ?_⟩
  exact (claim_C1 [⟨1, ⟨2024, 1, 1⟩, 5, 6, 0, 8⟩, ⟨1, ⟨2024, 1, 1⟩, 7, 8, 0, 8⟩] []
    (1, ⟨2024, 1, 1⟩)).2 ⟨1, ⟨2024, 1, 1⟩, 5, 6, 0, 8⟩ (by decide)

theorem updateFirst_append_left (s t : List PerfRecord) (g : PerfRecord)
    (h : hasKey s (keyR g) = true) :
    updateFirst (s ++ t) g = updateFirst s g ++ t := by
  induction s with
  | nil => simp [hasKey] at h
  | cons r rest ih =>
    rw [List.cons_append]
    unfold updateFirst
    split
    · rfl
    · rename_i hr
      unfold hasKey at h
      rw [List.any_cons, decide_eq_false hr, Bool.false_or] at h
      rw [ih h]
      rfl

theorem updateFirst_append_right (s t : List PerfRecord) (g : PerfRecord)
    (h : hasKey s (keyR g) = false) :
    updateFirst (s ++ t) g = s ++ updateFirst t g := by
  induction s with
  | nil => rfl
  | cons r rest ih =>
    unfold hasKey at h
    rw [List.any_cons, Bool.or_eq_false_iff] at h
    have hr : ¬(keyR r = keyR g) := by
      intro he
      rw [decide_eq_true he] at h
      exact absurd h.1 (by decide)
    rw [List.cons_append, updateFirst_cons, if_neg hr, ih h.2, List.cons_append]

theorem updateFirst_idem (s : List PerfRecord) (g : PerfRecord) :
    updateFirst (updateFirst s g) g = updateFirst s g := by
  induction s with
  | nil => rfl
  | cons r rest ih =>
    rw [updateFirst_cons]
    by_cases hr : keyR r = keyR g
    · rw [if_pos hr, updateFirst_cons, if_pos (by rw [keyR_setVals]; exact hr),
          setVals_setVals]
    · rw [if_neg hr, updateFirst_cons, if_neg hr, ih]

theorem upsertOne_idem (s : List PerfRecord) (g : PerfRecord) :
    upsertOne (upsertOne s g) g = upsertOne s g := by
  unfold upsertOne
  split
  · rename_i h
    rw [if_pos (by rw [hasKey_updateFirst]; exact h)]
    exact updateFirst_idem s g
  · rename_i h
    rw [Bool.not_eq_true] at h
    rw [if_pos (by rw [hasKey_append, h, Bool.false_or, hasKey_self_cons])]
    rw [updateFirst_append_right s [g] g h]
    unfold updateFirst
    rw [if_pos rfl, setVals_self]

theorem updateFirst_noop_step (s : List PerfRecord) (g g2 : PerfRecord)
    (hne : keyR g2 ≠ keyR g) (hnoop : updateFirst s g = s) :
    updateFirst (updateFirst s g2) g = updateFirst s g2 := by
  induction s with
  | nil => rfl
  | cons r rest ih =>
    rw [updateFirst_cons] at hnoop ⊢
    by_cases hr2 : keyR r = keyR g2
    · rw [if_pos hr2]
      have hrg : ¬(keyR r = keyR g) := by rw [hr2]; exact hne
      rw [if_neg hrg] at hnoop
      have htail := ((List.cons.injEq _ _ _ _).mp hnoop).2
      rw [updateFirst_cons, if_neg (by rw [keyR_setVals, hr2]; exact hne), htail]
    · rw [if_neg hr2, updateFirst_cons]
      by_cases hrg : keyR r = keyR g
      · rw [if_pos hrg] at hnoop ⊢
        have hhead := ((List.cons.injEq _ _ _ _).mp hnoop).1
        rw [hhead]
      · rw [if_neg hrg] at hnoop ⊢
        have htail := ((List.cons.injEq _ _ _ _).mp hnoop).2
        rw [ih htail]

theorem upsertOne_noop_step (s : List PerfRecord) (g g' : PerfRecord)
    (hne : keyR g' ≠ keyR g) (hnoop : upsertOne s g = s) :
    upsertOne (upsertOne s g') g = upsertOne s g' := by
  have hmain : ∀ (t : List PerfRecord) (x : PerfRecord), hasKey t (keyR x) = true →
      upsertOne t x = updateFirst t x := by
    intro t x ht
    unfold upsertOne
    rw [if_pos ht]
  have happ : ∀ (t : List PerfRecord) (x : PerfRecord), hasKey t (keyR x) = false →
      upsertOne t x = t ++ [x] := by
    intro t x ht
    unfold upsertOne
    rw [if_neg (by rw [ht]; exact Bool.false_ne_true)]
  have hk : hasKey s (keyR g) = true := by
    cases hk2 : hasKey s (keyR g) with
    | true => rfl
    | false =>
      rw [happ s g hk2] at hnoop
      have := congrArg List.length hnoop
      simp at this
  have hup : updateFirst s g = s := by
    rw [hmain s g hk] at hnoop
    exact hnoop
  have hk' : hasKey (upsertOne s g') (keyR g) = true := by
    unfold upsertOne
    split
    · rw [hasKey_updateFirst]; exact hk
    · rw [hasKey_append, hk, Bool.true_or]
  rw [hmain _ g hk']
  by_cases hsg' : hasKey s (keyR g') = true
  · rw [hmain s g' hsg']
    exact updateFirst_noop_step s g g' hne hup
  · rw [happ s g' (by rw [Bool.not_eq_true] at hsg'; exact hsg')]
    rw [updateFirst_append_left s [g'] g hk, hup]

theorem applyUpserts_noop (gs : List PerfRecord) (s : List PerfRecord) (g : PerfRecord)
    (hks : ∀ g2 ∈ gs, keyR g2 ≠ keyR g) (hnoop : upsertOne s g = s) :
    upsertOne (applyUpserts s gs) g = applyUpserts s gs := by
  induction gs generalizing s with
  | nil => exact hnoop
  | cons g2 gs' ih =>
    unfold applyUpserts at ih ⊢
    rw [List.foldl_cons]
    exact ih (upsertOne s g2) (fun x hx => hks x (List.mem_cons_of_mem _ hx))
      (upsertOne_noop_step s g g2 (hks g2 (List.mem_cons_self _ _)) hnoop)

theorem applyUpserts_idem (s : List PerfRecord) (gs : List PerfRecord)
    (hnd : (gs.map keyR).Nodup) :
    applyUpserts (applyUpserts s gs) gs = applyUpserts s gs := by
  induction gs generalizing s with
  | nil => rfl
  | cons g gs' ih =>
    simp only [List.map_cons, List.nodup_cons] at hnd
    unfold applyUpserts
    rw [List.foldl_cons, List.foldl_cons]
    have hks : ∀ g2 ∈ gs', keyR g2 ≠ keyR g := by
      intro g2 hg2 he
      exact hnd.1 (List.mem_map.mpr ⟨g2, hg2, he⟩)
    have hfix : upsertOne (List.foldl upsertOne (upsertOne s g) gs') g =
        List.foldl upsertOne (upsertOne s g) gs' :=
      applyUpserts_noop gs' (upsertOne s g) g hks (upsertOne_idem s g)
    rw [hfix]
    exact ih (upsertOne s g) hnd.2

/-- Claim C9: reconciling the same raw batch twice against the same store is
idempotent — if an upload took the store to store1, running the identical
upload against store1 returns store1 again: every grouped record now finds
its (agent_id, date) row present and overwrites it in place with the same
field values, and no duplicate rows are created. -/
theorem claim_C9 (raw : String) (y : Int) (ov : UploadOverrides)
    (resolve : String → Option Nat) (store store1 : List PerfRecord)
    (h : upload_raw_data raw y ov resolve store = .ok store1) :
    upload_raw_data raw y ov resolve store1 = .ok store1 := by
  unfold upload_raw_data at h ⊢
  cases hp : parse_raw_text raw y with
  | error msg =>
    rw [hp] at h
    simp only at h
    exact Except.noConfusion h
  | ok parsed =>
    rw [hp] at h
    simp only at h ⊢
    by_cases hemp : parsed = []
    · rw [if_pos hemp] at h
      exact absurd h (by simp)
    · rw [if_neg hemp] at h ⊢
      by_cases hunres : unresolvedAliases parsed resolve ≠ []
      · rw [if_pos hunres] at h
        exact absurd h (by simp)
      · rw [if_neg hunres] at h ⊢
        have hs1 := Except.ok.inj h
        rw [← hs1]
        rw [applyUpserts_idem store _ (nodup_keys_groupPerformances _)]

/-- Witness for claim C9 at a concrete upload: the two-row batch applied to
the empty store, then applied again to its own result. -/
theorem claim_C9_witness :
    upload_raw_data "WIEDER 1 ene.\nT. P M. A D.M\nM. ALVAREZ 5 6 0" 2024
      noOverrides (fun a => if a = "M. ALVAREZ" then some 1 else none) [] =
      .ok [⟨1, ⟨2024, 1, 1⟩, 5, 6, 0, 8⟩] ∧
    upload_raw_data "WIEDER 1 ene.\nT. P M. A D.M\nM. ALVAREZ 5 6 0" 2024
      noOverrides (fun a => if a = "M. ALVAREZ" then some 1 else none)
      [⟨1, ⟨2024, 1, 1⟩, 5, 6, 0, 8⟩] =
      .ok [⟨1, ⟨2024, 1, 1⟩, 5, 6, 0, 8⟩] := by
  refine ⟨by decide, ?_⟩
  exact claim_C9 "WIEDER 1 ene.\nT. P M. A D.M\nM. ALVAREZ 5 6 0" 2024 noOverrides
    (fun a => if a = "M. ALVAREZ" then some 1 else none) [] [⟨1, ⟨2024, 1, 1⟩, 5, 6, 0, 8⟩]
    (by decide)

theorem strLeAux_total (a b : List Char) : strLeAux a b = true ∨ strLeAux b a = true := by
  induction a generalizing b with
  | nil => exact Or.inl rfl
  | cons x as ih =>
    cases b with
    | nil => exact Or.inr rfl
    | cons y bs =>
      unfold strLeAux
      by_cases h1 : x.toNat < y.toNat
      · left; rw [if_pos h1]
      · by_cases h2 : y.toNat < x.toNat
        · right; rw [if_pos h2]
        · rw [if_neg h1, if_neg h2, if_neg h2, if_neg h1]
          exact ih bs

theorem strLeAux_trans (a b c : List Char) (hab : strLeAux a b = true)
    (hbc : strLeAux b c = true) : strLeAux a c = true := by
  induction a generalizing b c with
  | nil => rfl
  | cons x as ih =>
    cases b with
    | nil => exact absurd hab (by simp [strLeAux])
    | cons y bs =>
      cases c with
      | nil => exact absurd hbc (by simp [strLeAux])
      | cons z cs =>
        unfold strLeAux at hab hbc ⊢
        by_cases h1 : x.toNat < y.toNat
        · by_cases h2 : y.toNat < z.toNat
          · rw [if_pos (by omega)]
          · rw [if_neg h2] at hbc
            by_cases h3 : z.toNat < y.toNat
            · rw [if_pos h3] at hbc; exact absurd hbc (by decide)
            · rw [if_pos (by omega)]
        · rw [if_neg h1] at hab
          by_cases h2 : y.toNat < x.toNat
          · rw [if_pos h2] at hab; exact absurd hab (by decide)
          · rw [if_neg h2] at hab
            by_cases h3 : y.toNat < z.toNat
            · rw [if_pos (by omega)]
            · rw [if_neg h3] at hbc
              by_cases h4 : z.toNat < y.toNat
              · rw [if_pos h4] at hbc; exact absurd hbc (by decide)
              · rw [if_neg h4] at hbc
                rw [if_neg (by omega), if_neg (by omega)]
                exact ih bs cs hab hbc

instance : IsTotal String (fun a b => strLe a b = true) :=
  ⟨fun a b => strLeAux_total a.data b.data⟩

instance : IsTrans String (fun a b => strLe a b = true) :=
  ⟨fun a b c => strLeAux_trans a.data b.data c.data⟩

/-- Claim C4: when the parse succeeds with a non-empty batch and at least one
identity token cannot be resolved within the scope, the whole call fails with
the UnresolvedIdentity error and no upsert is performed on the store
(the HTTPException is raised before the upsert loop, so the commit is never
reached — all-or-nothing); the error carries exactly the unresolved tokens
of the batch — every alias of the batch that the resolver rejects is listed,
nothing else is, each once — sorted ascending. -/
theorem claim_C4 (raw : String) (y : Int) (ov : UploadOverrides)
    (resolve : String → Option Nat) (store : List PerfRecord)
    (ps : List ParsedPerformance)
    (hp : parse_raw_text raw y = .ok ps)
    (hne : ps ≠ [])
    (hmiss : unresolvedAliases ps resolve ≠ []) :
    upload_raw_data raw y ov resolve store =
      .error (.unresolvedIdentity (sortStrings (unresolvedAliases ps resolve))) ∧
    (∀ a, a ∈ sortStrings (unresolvedAliases ps resolve) ↔
      (a ∈ ps.map (fun p => p.excel_alias) ∧ resolve a = none)) ∧
    List.Sorted (fun a b => strLe a b = true) (sortStrings (unresolvedAliases ps resolve)) ∧
    (sortStrings (unresolvedAliases ps resolve)).Nodup := by
  refine ⟨?_, fun a => ?_, ?_, ?_⟩
  · unfold upload_raw_data
    rw [hp]
    simp only
    rw [if_neg hne, if_pos hmiss]
  · unfold sortStrings unresolvedAliases
    rw [(List.perm_insertionSort (fun a b => strLe a b = true) _).mem_iff,
        List.mem_dedup, List.mem_filter]
    constructor
    · rintro ⟨h1, h2⟩
      exact ⟨h1, Option.isNone_iff_eq_none.mp h2⟩
    · rintro ⟨h1, h2⟩
      exact ⟨h1, Option.isNone_iff_eq_none.mpr h2⟩
  · exact List.sorted_insertionSort (fun a b => strLe a b = true) _
  · exact (List.perm_insertionSort (fun a b => strLe a b = true) _).nodup_iff.mpr
      (List.nodup_dedup _)

/-- Witness for claim C4: a batch with rows for the unknown aliases "B. X"
and "A. Y" against a resolver that knows no one; the call fails with both
aliases listed, sorted, and returns no store. -/
theorem claim_C4_witness :
    parse_raw_text "WIEDER 1 ene.\nT. P M. A D.M\nB. X 1 2 0\nA. Y 3 4 0" 2024 =
      .ok [⟨"B. X", ⟨2024, 1, 1⟩, 1, 2, 0, 8⟩, ⟨"A. Y", ⟨2024, 1, 1⟩, 3, 4, 0, 8⟩] ∧
    upload_raw_data "WIEDER 1 ene.\nT. P M. A D.M\nB. X 1 2 0\nA. Y 3 4 0" 2024
      noOverrides (fun _ => none) [] =
      .error (.unresolvedIdentity ["A. Y", "B. X"]) := by
  refine ⟨by decide, ?_⟩
  exact (claim_C4 "WIEDER 1 ene.\nT. P M. A D.M\nB. X 1 2 0\nA. Y 3 4 0" 2024
    noOverrides (fun _ => none) []
    [⟨"B. X", ⟨2024, 1, 1⟩, 1, 2, 0, 8⟩, ⟨"A. Y", ⟨2024, 1, 1⟩, 3, 4, 0, 8⟩]
    (by decide) (by decide) (by decide)).1.trans (by decide)

theorem decodeDayBlocks_length (vals : List String) (dates : List SDate) :
    (decodeDayBlocks vals dates).length = min (vals.length / 3) dates.length := by
  induction dates generalizing vals with
  | nil =>
    rcases vals with _ | ⟨a, _ | ⟨g, _ | ⟨x, rest⟩⟩⟩ <;>
      (simp only [decodeDayBlocks, List.length_nil, List.length_cons]; omega)
  | cons d ds ih =>
    rcases vals with _ | ⟨a, _ | ⟨g, _ | ⟨x, rest⟩⟩⟩
    · simp only [decodeDayBlocks, List.length_nil]; omega
    · simp only [decodeDayBlocks, List.length_nil, List.length_cons]; omega
    · simp only [decodeDayBlocks, List.length_nil, List.length_cons]; omega
    · simp only [decodeDayBlocks, List.length_cons]
      rw [ih rest]
      omega

/-- Claim C2, corrected to the three-token threshold: the Day-Block Decoder
emits one record per step while at least THREE numeric tokens and at least
one date remain — pairing the sanitized tokens at positions 3i and 3i+1
(actual/goal) with the i-th date, then advancing the token index by exactly 3
(one ignored delta column) and the date index by 1 — and stops exactly when
fewer than 3 tokens or no dates remain, so it emits min(tokens/3, dates)
records; a short row gives a partial result, never an error (the decoder is
a total function). -/
theorem claim_C2 (vals : List String) (dates : List SDate) :
    (decodeDayBlocks vals dates).length = min (vals.length / 3) dates.length ∧
    (∀ i : Nat, 3 * i + 2 < vals.length → i < dates.length →
      (decodeDayBlocks vals dates).get? i =
        some (_safe_int (vals.getD (3 * i) ""),
              _safe_int (vals.getD (3 * i + 1) ""),
              dates.getD i ⟨0, 0, 0⟩)) := by
  refine ⟨decodeDayBlocks_length vals dates, ?_⟩
  induction dates generalizing vals with
  | nil => intro i h1 h2; simp at h2
  | cons d ds ih =>
    intro i h1 h2
    rcases vals with _ | ⟨a, _ | ⟨g, _ | ⟨x, rest⟩⟩⟩
    · simp at h1
    · simp at h1
    · simp at h1
    · cases i with
      | zero => rfl
      | succ j =>
        simp only [List.length_cons] at h1 h2
        have hrec := ih rest j (by omega) (by omega)
        simp only [decodeDayBlocks]
        rw [show (3 * (j + 1) : Nat) = 3 * j + 1 + 1 + 1 from by omega]
        simp only [List.get?_cons_succ, List.getD_cons_succ]
        exact hrec

/-- Witness for claim C2: a row of six tokens with two dates decodes to two
records, and the record at index 1 pairs sanitized tokens 3 and 4 with the
second date. -/
theorem claim_C2_witness :
    (decodeDayBlocks ["1", "2", "0", "3", "4", "0"] [⟨2024, 1, 1⟩, ⟨2024, 1, 2⟩]).length =
      min ((["1", "2", "0", "3", "4", "0"] : List String).length / 3)
        ([⟨2024, 1, 1⟩, ⟨2024, 1, 2⟩] : List SDate).length ∧
    (decodeDayBlocks ["1", "2", "0", "3", "4", "0"] [⟨2024, 1, 1⟩, ⟨2024, 1, 2⟩]).get? 1 =
      some (_safe_int ((["1", "2", "0", "3", "4", "0"] : List String).getD (3 * 1) ""),
            _safe_int ((["1", "2", "0", "3", "4", "0"] : List String).getD (3 * 1 + 1) ""),
            ([⟨2024, 1, 1⟩, ⟨2024, 1, 2⟩] : List SDate).getD 1 ⟨0, 0, 0⟩) :=
  ⟨(claim_C2 ["1", "2", "0", "3", "4", "0"] [⟨2024, 1, 1⟩, ⟨2024, 1, 2⟩]).1,
   (claim_C2 ["1", "2", "0", "3", "4", "0"] [⟨2024, 1, 1⟩, ⟨2024, 1, 2⟩]).2 1
     (by decide) (by decide)⟩

/-- Claim C3, corrected: `parse_raw_text` raises the MalformedInput
(ValueError) error IF AND ONLY IF fewer than 3 non-blank lines are present;
a header with zero extractable dates does NOT raise — the parse returns an
empty batch, which the endpoint rejects with the separate no-valid-data
400 error.  Both rejections, like the MalformedInput one, happen before any
identity-resolution or storage step: the call returns the error with the
store untouched. -/
theorem claim_C3 (raw : String) (y : Int) :
    ((parse_raw_text raw y).isOk = false ↔ (nonBlankLines raw).length < 3) ∧
    (∀ (msg : String) (ov : UploadOverrides) (resolve : String → Option Nat)
      (store : List PerfRecord), parse_raw_text raw y = .error msg →
      upload_raw_data raw y ov resolve store = .error (.malformedInput msg)) ∧
    (∀ (ov : UploadOverrides) (resolve : String → Option Nat)
      (store : List PerfRecord), parse_raw_text raw y = .ok [] →
      upload_raw_data raw y ov resolve store = .error .noValidData) := by
  refine ⟨?_, ?_, ?_⟩
  · unfold parse_raw_text
    by_cases h : (nonBlankLines raw).length < 3
    · rw [if_pos h]
      exact iff_of_true rfl h
    · rw [if_neg h]
      exact iff_of_false (fun hh => Bool.noConfusion hh) h
  · intro msg ov resolve store hp
    unfold upload_raw_data
    rw [hp]
  · intro ov resolve store hp
    unfold upload_raw_data
    rw [hp]
    rfl

/-- Witness for claim C3: "x\ny" has two non-blank lines and its parse is
not ok; "abc\ndef\nghi" parses to the empty batch and the upload call
rejects it with the no-valid-data error before resolution or storage. -/
theorem claim_C3_witness :
    (nonBlankLines "x\ny").length < 3 ∧
    (parse_raw_text "x\ny" 2024).isOk = false ∧
    parse_raw_text "abc\ndef\nghi" 2024 = .ok [] ∧
    upload_raw_data "abc\ndef\nghi" 2024 noOverrides (fun _ => some 1) [] =
      .error .noValidData :=
  ⟨by decide, (claim_C3 "x\ny" 2024).1.mpr (by decide), by decide,
   (claim_C3 "abc\ndef\nghi" 2024).2.2 noOverrides (fun _ => some 1) [] (by decide)⟩

/-- The identity token of a data line as the spec describes it: the text
before the first digit — i.e. the longest non-digit prefix — trimmed and
upper-cased. -/
def nameOf (line : String) : String :=
  pyUpper (pyStrip (String.mk ((pyStrip line).data.takeWhile (fun c => !c.isDigit))))

/-- The numeric tokens of a data line as the spec describes them: the
whitespace-split substrings from the first digit onward. -/
def numericTokens (line : String) : List String :=
  pySplit ((pyStrip line).data.dropWhile (fun c => !c.isDigit))

theorem findIdx?_spec (p : Char → Bool) (cs : List Char) (n : Nat) :
    (List.findIdx? p cs n = none ↔ ∀ c ∈ cs, p c = false) ∧
    (∀ i, List.findIdx? p cs n = some i →
      n ≤ i ∧ cs.take (i - n) = cs.takeWhile (fun c => !p c) ∧
      cs.drop (i - n) = cs.dropWhile (fun c => !p c)) := by
  induction cs generalizing n with
  | nil =>
    refine ⟨?_, ?_⟩
    · rw [List.findIdx?_nil]
      simp
    · intro i hi
      rw [List.findIdx?_nil] at hi
      exact Option.noConfusion hi
  | cons c rest ih =>
    rw [List.findIdx?_cons]
    by_cases hp : p c = true
    · rw [if_pos hp]
      refine ⟨?_, ?_⟩
      · exact iff_of_false (fun hh => Option.noConfusion hh)
          (fun hall => by rw [hall c (List.mem_cons_self _ _)] at hp; exact absurd hp (by decide))
      · intro i hi
        have hin : i = n := (Option.some.inj hi).symm
        subst hin
        refine ⟨Nat.le_refl i, ?_, ?_⟩
        · rw [Nat.sub_self, List.take_zero, List.takeWhile_cons, hp]
          rfl
        · rw [Nat.sub_self, List.drop_zero, List.dropWhile_cons, hp]
          rfl
    · rw [if_neg hp]
      rw [Bool.not_eq_true] at hp
      refine ⟨?_, ?_⟩
      · rw [(ih (n + 1)).1]
        constructor
        · intro hall x hx
          rcases List.mem_cons.mp hx with he | hm
          · rw [he]; exact hp
          · exact hall x hm
        · intro hall x hx
          exact hall x (List.mem_cons_of_mem _ hx)
      · intro i hi
        rcases (ih (n + 1)).2 i hi with ⟨hle, htake, hdrop⟩
        have hin : i - n = (i - (n + 1)) + 1 := by omega
        refine ⟨by omega, ?_, ?_⟩
        · rw [hin, List.take_succ_cons, htake, List.takeWhile_cons, hp]
          rfl
        · rw [hin, List.drop_succ_cons, hdrop, List.dropWhile_cons, hp]
          rfl

theorem contains_eq_true_iff (l : List String) (a : String) :
    l.contains a = true ↔ a ∈ l :=
  List.elem_iff

/-- Claim C5, corrected: the Row Segmenter of src/services/parser.py has NO
marker-substring check (no "TOTAL"/"CONTINGENCIA" handling — that exists only
in the standalone ingestion scripts): a line yields no record exactly when it
contains no digit (blank lines in particular), or the text before the first
digit, trimmed and upper-cased, is empty or exactly equals one of the
reserved header tokens "T.", "P", "M.", "A", "D.M", "WIEDER", "T. P",
"M. A"; every other line is split into that trimmed upper-cased identity
token and the whitespace-split numeric tokens from the first digit onward. -/
theorem claim_C5 (line : String) :
    (segmentLine line = none ↔
      ((∀ c ∈ (pyStrip line).data, c.isDigit = false) ∨
       nameOf line = "" ∨ nameOf line ∈ reservedHeaderTokens)) ∧
    (segmentLine line = none ∨
      segmentLine line = some (nameOf line, numericTokens line)) := by
  unfold segmentLine
  cases hf : List.findIdx? Char.isDigit (pyStrip line).data with
  | none =>
    exact ⟨iff_of_true rfl (Or.inl ((findIdx?_spec Char.isDigit _ 0).1.mp hf)), Or.inl rfl⟩
  | some i =>
    rcases (findIdx?_spec Char.isDigit _ 0).2 i hf with ⟨-, htake, hdrop⟩
    rw [Nat.sub_zero] at htake hdrop
    simp only [htake, hdrop]
    rw [show pyUpper (pyStrip (String.mk
          (List.takeWhile (fun c => !c.isDigit) (pyStrip line).data))) = nameOf line from rfl,
        show pySplit (List.dropWhile (fun c => !c.isDigit) (pyStrip line).data) =
          numericTokens line from rfl]
    have hdig : ¬(∀ c ∈ (pyStrip line).data, c.isDigit = false) := by
      intro hall
      rw [(findIdx?_spec Char.isDigit _ 0).1.mpr hall] at hf
      exact Option.noConfusion hf
    by_cases hskip : nameOf line = "" ∨ nameOf line ∈ reservedHeaderTokens
    · have hcond : (nameOf line = "" || reservedHeaderTokens.contains (nameOf line)) = true := by
        rcases hskip with h1 | h1
        · rw [decide_eq_true h1, Bool.true_or]
        · rw [(contains_eq_true_iff reservedHeaderTokens (nameOf line)).mpr h1, Bool.or_true]
      rw [if_pos hcond]
      exact ⟨iff_of_true rfl (Or.inr hskip), Or.inl rfl⟩
    · have hcond : (nameOf line = "" || reservedHeaderTokens.contains (nameOf line)) = false := by
        push_neg at hskip
        rw [decide_eq_false hskip.1, Bool.false_or]
        cases hc : reservedHeaderTokens.contains (nameOf line)
        · rfl
        · exact absurd ((contains_eq_true_iff _ _).mp hc) hskip.2
      rw [if_neg (by rw [hcond]; exact Bool.false_ne_true)]
      refine ⟨iff_of_false (fun hh => Option.noConfusion hh) ?_, Or.inr rfl⟩
      push_neg at hskip
      intro hor
      rcases hor with h1 | h1 | h1
      · exact hdig h1
      · exact hskip.1 h1
      · exact hskip.2 h1

/-- Witness for claim C5: the data line "M. ALVAREZ 5 6 0" is split into its
identity token and numeric tokens, and the digit-free header line
"T. P M. A D.M" is skipped. -/
theorem claim_C5_witness :
    segmentLine "M. ALVAREZ 5 6 0" = some ("M. ALVAREZ", ["5", "6", "0"]) ∧
    segmentLine "T. P M. A D.M" = none :=
  ⟨(((claim_C5 "M. ALVAREZ 5 6 0").2).resolve_left (by decide)).trans (by decide),
   (claim_C5 "T. P M. A D.M").1.mpr (Or.inl (by decide))⟩

/-- One well-formed header date token "<day> <month-word>[.]" as it appears
in a header line. -/
def renderTok (t : String × String) : String :=
  t.1 ++ " " ++ t.2 ++ "."

/-- A sequence of date tokens separated by single spaces. -/
def renderToks : List (String × String) → String
  | [] => ""
  | [t] => renderTok t
  | t :: rest => renderTok t ++ " " ++ renderToks rest

/-- A header line: arbitrary digit-free leading text followed by the date
tokens (e.g. "WIEDER 1 ene. 2 ene."). -/
def headerLine (pre : String) (toks : List (String × String)) : String :=
  pre ++ renderToks toks

/-- The date that one header token contributes: its month word must resolve
through `month_map` and its day must form a constructible date in the base
year, otherwise the token is skipped. -/
def tokDate (y : Int) (t : String × String) : Option SDate :=
  match month_map t.2 with
  | some m =>
    if isValidDate y m (digitsVal t.1.data) then some ⟨y, m, digitsVal t.1.data⟩ else none
  | none => none

theorem isDigit_toNat {c : Char} (h : c.isDigit = true) : 48 ≤ c.toNat ∧ c.toNat ≤ 57 := by
  unfold Char.isDigit at h
  simp only [Bool.and_eq_true, decide_eq_true_eq] at h
  exact ⟨h.1, h.2⟩

theorem isLowerAZ_toNat {c : Char} (h : isLowerAZ c = true) :
    97 ≤ c.toNat ∧ c.toNat ≤ 122 := by
  unfold isLowerAZ at h
  simp only [Bool.and_eq_true, decide_eq_true_eq, Char.le_def] at h
  exact ⟨h.1, h.2⟩

theorem lower_not_digit {c : Char} (h : isLowerAZ c = true) : c.isDigit = false := by
  cases hd : c.isDigit with
  | false => rfl
  | true =>
    have h1 := isDigit_toNat hd
    have h2 := isLowerAZ_toNat h
    omega

theorem lower_not_space {c : Char} (h : isLowerAZ c = true) : isPySpace c = false := by
  cases hs : isPySpace c with
  | false => rfl
  | true =>
    unfold isPySpace at hs
    simp only [Bool.or_eq_true, beq_iff_eq] at hs
    rcases hs with ((((h1 | h1) | h1) | h1) | h1) | h1 <;>
      (subst h1; exact absurd h (by decide))

theorem char_ofNat_toNat (n : Nat) (h : n < 55296) : (Char.ofNat n).toNat = n := by
  unfold Char.ofNat
  rw [dif_pos (Or.inl h)]
  simp [Char.ofNatAux, Char.toNat, UInt32.toNat, UInt32.ofNatCore, BitVec.toNat_ofNatLt]

theorem pyLowerChar_of_digit {c : Char} (h : c.isDigit = true) : pyLowerChar c = c := by
  have hb := isDigit_toNat h
  unfold pyLowerChar
  rw [if_neg (by omega)]

theorem pyLowerChar_of_lower {c : Char} (h : isLowerAZ c = true) : pyLowerChar c = c := by
  have hb := isLowerAZ_toNat h
  unfold pyLowerChar
  rw [if_neg (by omega)]

theorem pyLowerChar_not_digit {c : Char} (h : c.isDigit = false) :
    (pyLowerChar c).isDigit = false := by
  unfold pyLowerChar
  split
  · rename_i hc
    cases hd : (Char.ofNat (c.toNat + 32)).isDigit with
    | false => rfl
    | true =>
      have hb := isDigit_toNat hd
      rw [char_ofNat_toNat (c.toNat + 32) (by omega)] at hb
      omega
  · exact h

theorem scan_start_digit {c : Char} (h : c.isDigit = true) (rest : List Char) :
    scanDatesAux (c :: rest) .start = scanDatesAux rest (.inDigits (digitVal c)) := by
  simp only [scanDatesAux]
  rw [if_pos h]

theorem scan_start_nondigit {c : Char} (h : c.isDigit = false) (rest : List Char) :
    scanDatesAux (c :: rest) .start = scanDatesAux rest .start := by
  simp only [scanDatesAux]
  rw [if_neg (by rw [h]; exact Bool.false_ne_true)]

theorem scan_inDigits_digit {c : Char} (h : c.isDigit = true) (day : Nat) (rest : List Char) :
    scanDatesAux (c :: rest) (.inDigits day) =
      scanDatesAux rest (.inDigits (10 * day + digitVal c)) := by
  simp only [scanDatesAux]
  rw [if_pos h]

theorem scan_inDigits_space (day : Nat) (rest : List Char) :
    scanDatesAux (' ' :: rest) (.inDigits day) = scanDatesAux rest (.afterSpace day) := by
  simp only [scanDatesAux]
  rw [if_neg (by decide), if_pos (by decide)]

theorem scan_afterSpace_lower {c : Char} (h : isLowerAZ c = true) (day : Nat)
    (rest : List Char) :
    scanDatesAux (c :: rest) (.afterSpace day) = scanDatesAux rest (.oneLetter day c) := by
  simp only [scanDatesAux]
  rw [if_neg (by rw [lower_not_digit h]; exact Bool.false_ne_true),
      if_neg (by rw [lower_not_space h]; exact Bool.false_ne_true),
      if_pos h]

theorem scan_oneLetter_lower {c : Char} (h : isLowerAZ c = true) (day : Nat) (a : Char)
    (rest : List Char) :
    scanDatesAux (c :: rest) (.oneLetter day a) = scanDatesAux rest (.twoLetters day a c) := by
  simp only [scanDatesAux]
  rw [if_neg (by rw [lower_not_digit h]; exact Bool.false_ne_true), if_pos h]

theorem scan_twoLetters_lower {c : Char} (h : isLowerAZ c = true) (day : Nat) (a b : Char)
    (rest : List Char) :
    scanDatesAux (c :: rest) (.twoLetters day a b) =
      (day, String.mk [a, b, c]) :: scanDatesAux rest .afterMatch := by
  simp only [scanDatesAux]
  rw [if_neg (by rw [lower_not_digit h]; exact Bool.false_ne_true), if_pos h]

theorem scan_afterMatch_dot (rest : List Char) :
    scanDatesAux ('.' :: rest) .afterMatch = scanDatesAux rest .start := by
  simp only [scanDatesAux]
  rw [if_pos trivial]

theorem digitsVal_cons (d : Char) (ds : List Char) :
    digitsVal (d :: ds) = ds.foldl (fun a c => 10 * a + digitVal c) (digitVal d) := by
  unfold digitsVal
  rw [List.foldl_cons]
  simp

theorem scan_start_skip (p r : List Char) (h : ∀ c ∈ p, c.isDigit = false) :
    scanDatesAux (p ++ r) .start = scanDatesAux r .start := by
  induction p with
  | nil => rfl
  | cons c rest ih =>
    rw [List.cons_append, scan_start_nondigit (h c (List.mem_cons_self _ _))]
    exact ih (fun x hx => h x (List.mem_cons_of_mem _ hx))

theorem scan_digit_run (ds r : List Char) (a : Nat) (h : ∀ c ∈ ds, c.isDigit = true) :
    scanDatesAux (ds ++ r) (.inDigits a) =
      scanDatesAux r (.inDigits (ds.foldl (fun x c => 10 * x + digitVal c) a)) := by
  induction ds generalizing a with
  | nil => rfl
  | cons c rest ih =>
    rw [List.cons_append, scan_inDigits_digit (h c (List.mem_cons_self _ _)),
        ih _ (fun x hx => h x (List.mem_cons_of_mem _ hx)), List.foldl_cons]

theorem map_id_of_fixed {l : List Char} (f : Char → Char) (h : ∀ c ∈ l, f c = c) :
    l.map f = l := by
  induction l with
  | nil => rfl
  | cons c rest ih =>
    rw [List.map_cons, h c (List.mem_cons_self _ _),
        ih (fun x hx => h x (List.mem_cons_of_mem _ hx))]

theorem scan_token (t : String × String) (tail2 : List Char)
    (h1 : t.1.data ≠ []) (h2 : ∀ c ∈ t.1.data, c.isDigit = true)
    (h3 : t.2.data.length = 3) (h4 : ∀ c ∈ t.2.data, isLowerAZ c = true) :
    scanDatesAux ((renderTok t).data ++ tail2) .start =
      (digitsVal t.1.data, t.2) :: scanDatesAux tail2 .start := by
  rcases List.length_eq_three.mp h3 with ⟨a, b, c3, hm⟩
  have hdata : (renderTok t).data = t.1.data ++ ' ' :: (t.2.data ++ ['.']) := by
    unfold renderTok
    simp [String.data_append]
  obtain ⟨d, ds, hd1⟩ : ∃ d ds, t.1.data = d :: ds := by
    cases hq : t.1.data with
    | nil => exact absurd hq h1
    | cons d ds => exact ⟨d, ds, rfl⟩
  rw [hdata, hd1]
  simp only [List.cons_append, List.append_assoc, List.singleton_append, List.nil_append]
  rw [scan_start_digit (h2 d (by rw [hd1]; exact List.mem_cons_self _ _))]
  rw [scan_digit_run ds _ _ (fun x hx => h2 x (by rw [hd1]; exact List.mem_cons_of_mem _ hx))]
  rw [← digitsVal_cons, ← hd1]
  rw [scan_inDigits_space]
  rw [hm]
  simp only [List.cons_append, List.nil_append]
  rw [scan_afterSpace_lower (h4 a (by rw [hm]; simp))]
  rw [scan_oneLetter_lower (h4 b (by rw [hm]; simp))]
  rw [scan_twoLetters_lower (h4 c3 (by rw [hm]; simp))]
  rw [scan_afterMatch_dot]
  rw [show String.mk [a, b, c3] = t.2 from by rw [← hm]]

theorem scan_renderToks (toks : List (String × String))
    (h : ∀ t ∈ toks, t.1.data ≠ [] ∧ (∀ c ∈ t.1.data, c.isDigit = true) ∧
      t.2.data.length = 3 ∧ (∀ c ∈ t.2.data, isLowerAZ c = true)) :
    scanDatesAux (renderToks toks).data .start =
      toks.map (fun t => (digitsVal t.1.data, t.2)) := by
  induction toks with
  | nil => rfl
  | cons t rest ih =>
    rcases h t (List.mem_cons_self _ _) with ⟨h1, h2, h3, h4⟩
    cases rest with
    | nil =>
      have hstep := scan_token t [] h1 h2 h3 h4
      rw [List.append_nil] at hstep
      rw [show renderToks [t] = renderTok t from rfl, hstep]
      rfl
    | cons t2 rest2 =>
      have hdata : (renderToks (t :: t2 :: rest2)).data =
          (renderTok t).data ++ (' ' :: (renderToks (t2 :: rest2)).data) := by
        rw [show renderToks (t :: t2 :: rest2) =
              renderTok t ++ " " ++ renderToks (t2 :: rest2) from rfl]
        simp [String.data_append]
      rw [hdata, scan_token t _ h1 h2 h3 h4,
          scan_start_nondigit (by decide),
          ih (fun x hx => h x (List.mem_cons_of_mem _ hx))]
      rfl

theorem renderToks_chars_fixed (toks : List (String × String))
    (h : ∀ t ∈ toks, (∀ c ∈ t.1.data, c.isDigit = true) ∧
      (∀ c ∈ t.2.data, isLowerAZ c = true)) :
    ∀ c ∈ (renderToks toks).data, pyLowerChar c = c := by
  induction toks with
  | nil => intro c hc; exact absurd hc (by simp [renderToks])
  | cons t rest ih =>
    have htok : ∀ c ∈ (renderTok t).data, pyLowerChar c = c := by
      intro c hc
      unfold renderTok at hc
      simp only [String.data_append] at hc
      rcases List.mem_append.mp hc with hc1 | hc1
      · rcases List.mem_append.mp hc1 with hc2 | hc2
        · rcases List.mem_append.mp hc2 with hc3 | hc3
          · exact pyLowerChar_of_digit ((h t (List.mem_cons_self _ _)).1 c hc3)
          · rw [List.mem_singleton] at hc3
            rw [hc3]
            decide
        · exact pyLowerChar_of_lower ((h t (List.mem_cons_self _ _)).2 c hc2)
      · rw [List.mem_singleton] at hc1
        rw [hc1]
        decide
    intro c hc
    cases rest with
    | nil => exact htok c hc
    | cons t2 rest2 =>
      rw [show renderToks (t :: t2 :: rest2) =
            renderTok t ++ " " ++ renderToks (t2 :: rest2) from rfl] at hc
      simp only [String.data_append] at hc
      rcases List.mem_append.mp hc with hc1 | hc1
      · rcases List.mem_append.mp hc1 with hc2 | hc2
        · exact htok c hc2
        · rw [List.mem_singleton] at hc2
          rw [hc2]
          decide
      · exact ih (fun x hx => h x (List.mem_cons_of_mem _ hx)) c hc1

theorem length_filterMap_of_isSome {α β : Type} (f : α → Option β) (l : List α)
    (h : ∀ x ∈ l, (f x).isSome = true) : (l.filterMap f).length = l.length := by
  induction l with
  | nil => rfl
  | cons x rest ih =>
    cases hf : f x with
    | none =>
      have hx := h x (List.mem_cons_self _ _)
      rw [hf] at hx
      exact absurd hx (by simp)
    | some b =>
      rw [List.filterMap_cons, hf]
      simp only [List.length_cons]
      rw [ih (fun z hz => h z (List.mem_cons_of_mem _ hz))]

/-- Claim C7: for every header line consisting of digit-free leading text
followed by N well-formed "<day> <3-letter-month>[.]" tokens (day a non-empty
digit string, month word three lower-case letters) and every base year,
`_extract_dates` returns exactly the dates of the tokens whose month
abbreviation is known and whose day is valid for a real calendar date, in
left-to-right textual order of appearance (not calendar-sorted), each formed
in the base year from the matched day and month; tokens with an invalid day
are skipped rather than raising, and when all N tokens are valid the result
has exactly N dates. -/
theorem claim_C7 (pre : String) (toks : List (String × String)) (y : Int)
    (hpre : ∀ c ∈ pre.data, c.isDigit = false)
    (htoks : ∀ t ∈ toks, t.1.data ≠ [] ∧ (∀ c ∈ t.1.data, c.isDigit = true) ∧
      t.2.data.length = 3 ∧ (∀ c ∈ t.2.data, isLowerAZ c = true)) :
    _extract_dates (headerLine pre toks) y = toks.filterMap (tokDate y) ∧
    ((∀ t ∈ toks, (tokDate y t).isSome = true) →
      (_extract_dates (headerLine pre toks) y).length = toks.length) := by
  have hmain : _extract_dates (headerLine pre toks) y = toks.filterMap (tokDate y) := by
    unfold _extract_dates scanDates pyLower headerLine
    rw [String.data_append, List.map_append]
    rw [map_id_of_fixed pyLowerChar (renderToks_chars_fixed toks
        (fun t ht => ⟨(htoks t ht).2.1, (htoks t ht).2.2.2⟩))]
    rw [scan_start_skip _ _ (fun c hc => by
      rcases List.mem_map.mp hc with ⟨c0, hc0, hcc⟩
      rw [← hcc]
      exact pyLowerChar_not_digit (hpre c0 hc0))]
    rw [scan_renderToks toks htoks]
    rw [List.filterMap_map]
    rfl
  refine ⟨hmain, fun hall => ?_⟩
  rw [hmain]
  exact length_filterMap_of_isSome (tokDate y) toks hall

/-- Witness for claim C7: the header "WIEDER 1 ene. 31 abr. 2 ene." yields
the valid tokens' dates in textual order, skipping the invalid 31-April
token; with both tokens of "WIEDER 1 ene. 2 ene." valid, exactly two dates
come back. -/
theorem claim_C7_witness :
    _extract_dates (headerLine "WIEDER " [("1", "ene"), ("31", "abr"), ("2", "ene")]) 2024 =
      ([("1", "ene"), ("31", "abr"), ("2", "ene")] : List (String × String)).filterMap
        (tokDate 2024) ∧
    _extract_dates (headerLine "WIEDER " [("1", "ene"), ("31", "abr"), ("2", "ene")]) 2024 =
      [⟨2024, 1, 1⟩, ⟨2024, 1, 2⟩] ∧
    (_extract_dates (headerLine "WIEDER " [("1", "ene"), ("2", "ene")]) 2024).length = 2 :=
  ⟨(claim_C7 "WIEDER " [("1", "ene"), ("31", "abr"), ("2", "ene")] 2024
      (by decide) (by decide)).1,
   by decide,
   ((claim_C7 "WIEDER " [("1", "ene"), ("2", "ene")] 2024
      (by decide) (by decide)).2 (by decide)).trans (by decide)⟩
